import Mathlib

/-!
Verification development for the attention / transformer tutorial notebook.

The numeric code is embedded over the reals.  Tensors are modelled the way
PyTorch implements them: a flat storage list together with a shape and a
stride vector, so that `transpose` (a stride swap) and `view` (a storage
reinterpretation, legal exactly when the strides admit the new shape per
ATen's chunk rule) have their real semantics.  IEEE `-inf` entries
introduced by the causal mask are modelled with `WithBot ℝ` (`⊥` plays the
role of `-inf`; `exp ⊥ = 0`).
-/

namespace Tut

noncomputable section

/-- Product of a list of dimension sizes (number of elements of a tensor). -/
def listProd (l : List Nat) : Nat := l.foldr (· * ·) 1

/-- Contiguous (row-major) strides for a given shape, as PyTorch assigns to a
freshly materialized tensor. -/
def csd : List Nat → List Nat
  | [] => []
  | _ :: ds => listProd ds :: csd ds

/-- Flat storage offset of a multi-index with respect to a stride vector. -/
def idxFlat (strides ix : List Nat) : Nat :=
  (List.zipWith (· * ·) strides ix).sum

/-- Inverse of flattening: decompose a flat row-major offset into a
multi-index for the given shape. -/
def unflatten : List Nat → Nat → List Nat
  | [], _ => []
  | _ :: ds, n => n / listProd ds :: unflatten ds (n % listProd ds)

/-- Predicate `idxOk ix sh` : the multi-index `ix` is in bounds for shape `sh`. -/
def idxOk : List Nat → List Nat → Bool
  | [], [] => true
  | i :: ix, d :: ds => decide (i < d) && idxOk ix ds
  | _, _ => false

/-- A (PyTorch-style) strided tensor: flat storage plus shape and strides. -/
structure Tensor (α : Type) where
  shape : List Nat
  strides : List Nat
  data : List α

/-- A freshly materialized (contiguous) tensor whose logical entries are
given by `f`. -/
def Tensor.ofFun {α : Type} (sh : List Nat) (f : List Nat → α) : Tensor α :=
  ⟨sh, csd sh, (List.range (listProd sh)).map (fun n => f (unflatten sh n))⟩

/-- Read the entry at a multi-index, through the strides. -/
def Tensor.get {α : Type} [Zero α] (t : Tensor α) (ix : List Nat) : α :=
  t.data.getD (idxFlat t.strides ix) 0

/-- Swap the entries at positions `i` and `j` of a list. -/
def swapL (l : List Nat) (i j : Nat) : List Nat :=
  (l.set i (l.getD j 0)).set j (l.getD i 0)

/-- Model of `torch.transpose`: swap two axes.  On a strided tensor this only swaps
the corresponding shape and stride entries; the storage is untouched. -/
def Tensor.transposeDims {α : Type} (t : Tensor α) (i j : Nat) : Tensor α :=
  ⟨swapL t.shape i j, swapL t.strides i j, t.data⟩

/-- Shape/stride pairs of the non-singleton axes (size-1 axes never
constrain contiguity). -/
def squeezePairs (sh st : List Nat) : List (Nat × Nat) :=
  (sh.zip st).filter (fun p => decide (p.1 ≠ 1))

/-- Numels of the maximal contiguous runs of a squeezed (size, stride)
list, scanned left to right: a run extends over an adjacent pair exactly
when `stride_k = stride_(k+1) * size_(k+1)` (the layout of the run is
dense), mirroring the chunking in ATen's `computeStride`.  `accProd` is the
size product of the current run and `prevStride` the stride of its last
dim. -/
def chunksGo : Nat → Nat → List (Nat × Nat) → List Nat
  | accProd, _, [] => [accProd]
  | accProd, prevStride, (s, st) :: rest =>
      if prevStride = st * s then chunksGo (accProd * s) st rest
      else accProd :: chunksGo s st rest

/-- Chunk numels of a dimension list (empty list: no chunks). -/
def chunkNumels : List (Nat × Nat) → List Nat
  | [] => []
  | (s, st) :: rest => chunksGo s st rest

/-- Consume a prefix of `sizes` whose product is exactly `n` (all squeezed
sizes exceed 1, so the prefix, if any, is unique); returns the remaining
sizes. -/
def consume (n : Nat) : Nat → List Nat → Option (List Nat)
  | acc, [] => if acc = n then some [] else none
  | acc, s :: rest =>
      if acc = n then some (s :: rest)
      else if acc * s ≤ n then consume n (acc * s) rest else none

/-- Can the new (squeezed) sizes be partitioned into consecutive groups
whose products are exactly the chunk numels, in order?  Within a chunk any
factorization is expressible by strides; across chunk boundaries dims may
never merge. -/
def groupable : List Nat → List Nat → Bool
  | [], sizes => sizes.isEmpty
  | n :: ns, sizes =>
      match consume n 1 sizes with
      | none => false
      | some rest => groupable ns rest

/-- Legality of `torch.view`, following ATen's `computeStride`: drop size-1
axes on both sides, split the old axes into maximal dense runs (chunks),
and require the new sizes to align with the chunk boundaries — each new
axis group must fit inside one chunk.  A single old axis may always be
split (any stride works); distinct chunks may never be merged. -/
def viewOk (sh st ns : List Nat) : Bool :=
  groupable (chunkNumels (squeezePairs sh st))
    (ns.filter (fun d => decide (d ≠ 1)))

/-- Model of `torch.view`: reinterpret the tensor under a new shape with
the same element count, when the strides admit it (`viewOk`).  A successful
`view` (like `reshape`) always preserves the logical row-major enumeration:
entry `ix` of the result is the logical entry of `t` at the same row-major
rank — ATen's computed strides realize exactly this reordering on the
shared storage. -/
def Tensor.view {α : Type} [Zero α] (t : Tensor α) (ns : List Nat) :
    Option (Tensor α) :=
  if viewOk t.shape t.strides ns && (listProd ns == listProd t.shape) then
    some (Tensor.ofFun ns (fun ix => t.get (unflatten t.shape (idxFlat (csd ns) ix))))
  else none

/-- Entrywise map (used for the float/`-inf` bookkeeping only). -/
def Tensor.map {α β : Type} (f : α → β) (t : Tensor α) : Tensor β :=
  ⟨t.shape, t.strides, t.data.map f⟩

/-- Model of `torch.matmul` on two rank-4 tensors with equal batch dimensions:
`out[b,h,i,j] = Σ_k a[b,h,i,k] * b[b,h,k,j]`. -/
def matmul4 (a b : Tensor ℝ) : Tensor ℝ :=
  let inner := a.shape.getD 3 0
  Tensor.ofFun [a.shape.getD 0 0, a.shape.getD 1 0, a.shape.getD 2 0, b.shape.getD 3 0]
    (fun ix =>
      ∑ k ∈ Finset.range inner,
        a.get [ix.getD 0 0, ix.getD 1 0, ix.getD 2 0, k]
          * b.get [ix.getD 0 0, ix.getD 1 0, k, ix.getD 3 0])

/-- Model of `nn.Linear(din, dout)` applied to a rank-3 tensor along the last axis:
`y[b,l,o] = Σ_k x[b,l,k] * w[o][k] + bias[o]` (PyTorch stores the weight as
`[out_features, in_features]`). -/
def linear3 (w : List (List ℝ)) (bias : List ℝ) (t : Tensor ℝ) : Tensor ℝ :=
  let inDim := (w.getD 0 []).length
  Tensor.ofFun [t.shape.getD 0 0, t.shape.getD 1 0, w.length]
    (fun ix =>
      (∑ k ∈ Finset.range inDim,
        t.get [ix.getD 0 0, ix.getD 1 0, k] * (w.getD (ix.getD 2 0) []).getD k 0)
        + bias.getD (ix.getD 2 0) 0)

/-- The function `exp` extended to the `-inf` element: IEEE `exp(-inf) = 0`. -/
def wexp (s : WithBot ℝ) : ℝ := s.recBotCoe 0 Real.exp

/-- Model of `torch.full(sh, c)`. -/
def fullT (sh : List Nat) (c : WithBot ℝ) : Tensor (WithBot ℝ) :=
  Tensor.ofFun sh (fun _ => c)

/-- Model of `torch.triu(t, diagonal)` on a matrix: keep the entries with
`j ≥ i + diagonal`, zero out the rest. -/
def triu2 (t : Tensor (WithBot ℝ)) (diag : Int) : Tensor (WithBot ℝ) :=
  Tensor.ofFun t.shape
    (fun ix =>
      if ((ix.getD 0 0 : Nat) : Int) + diag ≤ ((ix.getD 1 0 : Nat) : Int)
      then t.get ix else 0)

/-- Model of `t.unsqueeze(0)`: a leading size-1 axis (stride of the new axis is the
element count, irrelevant since its only index is 0). -/
def unsqueeze0 {α : Type} (t : Tensor α) : Tensor α :=
  ⟨1 :: t.shape, listProd t.shape :: t.strides, t.data⟩

/-- Broadcast addition of a `[1, L, L]` mask onto a `[B, H, L, L]` tensor
(the mask's singleton leading axis broadcasts over both batch and head). -/
def addB43 (a m : Tensor (WithBot ℝ)) : Tensor (WithBot ℝ) :=
  Tensor.ofFun a.shape
    (fun ix => a.get ix + m.get [0, ix.getD 2 0, ix.getD 3 0])

/-- Cast a finite real tensor into the reals-with-`-inf` carrier. -/
def toWB (t : Tensor ℝ) : Tensor (WithBot ℝ) :=
  Tensor.map (fun r : ℝ => (r : WithBot ℝ)) t

/-- Division of every entry by a constant; `-inf / c = -inf` (IEEE, for the
positive divisors this program uses). -/
def divConst (t : Tensor (WithBot ℝ)) (c : ℝ) : Tensor (WithBot ℝ) :=
  t.map (WithBot.map (fun s => s / c))

/-- Model of `F.softmax(t, dim=-1)` on a rank-4 tensor whose entries may be `-inf`:
`w[b,h,i,j] = exp t[b,h,i,j] / Σ_k exp t[b,h,i,k]` with `exp (-inf) = 0`
(PyTorch subtracts the finite row maximum before exponentiating, which
leaves this value unchanged whenever the row has a finite entry). -/
def softmaxLast4 (t : Tensor (WithBot ℝ)) : Tensor ℝ :=
  let n := t.shape.getD 3 0
  Tensor.ofFun t.shape
    (fun ix =>
      wexp (t.get ix)
        / ∑ k ∈ Finset.range n,
            wexp (t.get [ix.getD 0 0, ix.getD 1 0, ix.getD 2 0, k]))

/-- An `[rows, cols]` weight matrix filled from an entry oracle (the
framework's random initialization of an `nn.Linear(cols, rows)` weight). -/
def mkMat (rows cols : Nat) (f : Nat → Nat → ℝ) : List (List ℝ) :=
  (List.range rows).map (fun o => (List.range cols).map (fun k => f o k))

/-- A length-`n` vector filled from an entry oracle. -/
def mkVec (n : Nat) (f : Nat → ℝ) : List ℝ := (List.range n).map f

/-! ## The `selfAttention` module -/

/-- The configuration dictionary the notebook builds
(`config = {'d_embed': 64, 'd_head': 16, 'd_mlp': 256, 'num_head': 4,
'num_layers': 1, 'vocab_size': ..., 'max_len': 2048}`). -/
structure Config where
  d_embed : Nat
  d_head : Nat
  d_mlp : Nat
  num_head : Nat
  num_layers : Nat
  vocab_size : Nat
  max_len : Nat

/-- State of a constructed `selfAttention` module: the derived dimensions
plus the four linear layers' parameters (whose values come from the
framework's random initialization, here passed in by the caller). -/
structure AttnParams where
  d_embed : Nat
  num_head : Nat
  d_head : Nat
  wq : List (List ℝ)
  wk : List (List ℝ)
  wv : List (List ℝ)
  wo : List (List ℝ)
  bq : List ℝ
  bk : List ℝ
  bv : List ℝ
  bo : List ℝ

namespace selfAttention

/-- Constructor `selfAttention.__init__`: `num_head = d_embed // d_head` and then
`d_head = d_embed // num_head` (Python floor division; a division by zero —
`d_head = 0`, or a `d_head` larger than `d_embed` making `num_head = 0` —
raises `ZeroDivisionError`, modelled as `none`).  No divisibility check of
any kind is performed.  The three projections are
`nn.Linear(d_embed, num_head * d_head)` and the mixing map is
`nn.Linear(d_embed, d_embed)`; their randomly initialized entries are
supplied by the oracles. -/
def init (cfg : Config) (fq fk fv fo : Nat → Nat → ℝ) (gq gk gv go : Nat → ℝ) :
    Option AttnParams :=
  if cfg.d_head = 0 ∨ cfg.d_embed / cfg.d_head = 0 then none
  else
    let nh := cfg.d_embed / cfg.d_head
    let dh := cfg.d_embed / nh
    some { d_embed := cfg.d_embed
           num_head := nh
           d_head := dh
           wq := mkMat (nh * dh) cfg.d_embed fq
           wk := mkMat (nh * dh) cfg.d_embed fk
           wv := mkMat (nh * dh) cfg.d_embed fv
           wo := mkMat cfg.d_embed cfg.d_embed fo
           bq := mkVec (nh * dh) gq
           bk := mkVec (nh * dh) gk
           bv := mkVec (nh * dh) gv
           bo := mkVec cfg.d_embed go }

/-- Lines 474–484 of `selfAttention.forward`: build the causal mask
(`torch.triu(torch.full((L,L), -inf), diagonal=1)`), add it to the raw
scores, divide by `sqrt(d_embed)` and apply the row-wise softmax. -/
def maskedWeights (d_embed seq_len : Nat) (QKT : Tensor ℝ) : Tensor ℝ :=
  let mask := triu2 (fullT [seq_len, seq_len] ⊥) 1
  let scores := addB43 (toWB QKT) (unsqueeze0 mask)
  let scores2 := divConst scores (Real.sqrt d_embed)
  softmaxLast4 scores2

/-- Model of `selfAttention.forward`.  The shape destructuring
`batch_size, seq_len, d_embed = x.shape` requires a rank-3 input; the
`view` calls return `none` where PyTorch raises a RuntimeError.  Note that
the reassembly step is `attn.transpose(0, 1)` — it swaps the batch and head
axes — followed by `attn.view(batch_size, seq_len, num_head * d_head)`. -/
def forward (p : AttnParams) (x : Tensor ℝ) : Option (Tensor ℝ) :=
  match x.shape with
  | [batch_size, seq_len, d_embed] =>
    let Q0 := linear3 p.wq p.bq x
    let K0 := linear3 p.wk p.bk x
    let V0 := linear3 p.wv p.bv x
    (Q0.view [batch_size, seq_len, p.num_head, p.d_head]).bind fun Qv =>
    (K0.view [batch_size, seq_len, p.num_head, p.d_head]).bind fun Kv =>
    (V0.view [batch_size, seq_len, p.num_head, p.d_head]).bind fun Vv =>
    let Q := Qv.transposeDims 1 2
    let K := Kv.transposeDims 1 2
    let V := Vv.transposeDims 1 2
    let QKT := matmul4 Q (K.transposeDims 2 3)
    let attentions_weights := maskedWeights d_embed seq_len QKT
    let attn := matmul4 attentions_weights V
    let attn2 := attn.transposeDims 0 1
    (attn2.view [batch_size, seq_len, p.num_head * p.d_head]).map fun attn3 =>
      linear3 p.wo p.bo attn3
  | _ => none

end selfAttention

/-! ## MLP, RMSNorm, Transformer block -/

/-- State of a constructed `MLP` module. -/
structure MLPParams where
  d_embed : Nat
  d_mlp : Nat
  upW : List (List ℝ)
  upB : List ℝ
  downW : List (List ℝ)
  downB : List ℝ

namespace MLP

/-- Constructor `MLP.__init__`: `self.d_mlp = 4 * self.d_embed` — the hidden width is
hardcoded to four times the embedding width; the configuration's `d_mlp`
entry is never read.  `up_projection = nn.Linear(d_embed, d_mlp)`,
`down_projection = nn.Linear(d_mlp, d_embed)`. -/
def init (cfg : Config) (fu fd : Nat → Nat → ℝ) (gu gd : Nat → ℝ) : MLPParams :=
  let dm := 4 * cfg.d_embed
  { d_embed := cfg.d_embed
    d_mlp := dm
    upW := mkMat dm cfg.d_embed fu
    upB := mkVec dm gu
    downW := mkMat cfg.d_embed dm fd
    downB := mkVec cfg.d_embed gd }

/-- Model of `F.relu` applied entrywise. -/
def reluT (t : Tensor ℝ) : Tensor ℝ := t.map (fun r => max r 0)

/-- Model of `MLP.forward`: `down_projection(relu(up_projection(x)))`. -/
def forward (p : MLPParams) (x : Tensor ℝ) : Tensor ℝ :=
  linear3 p.downW p.downB (reluT (linear3 p.upW p.upB x))

end MLP

/-- Entrywise addition of two same-shape tensors (the residual adds). -/
def addT (a b : Tensor ℝ) : Tensor ℝ :=
  Tensor.ofFun a.shape (fun ix => a.get ix + b.get ix)

/-- Model of `nn.RMSNorm(d)` on a rank-3 tensor, normalizing over the last axis:
`y[b,l,k] = x[b,l,k] / sqrt(mean_j x[b,l,j]^2 + eps) * g[k]` with the
learnable per-dimension weight `g`. -/
def rmsnorm3 (g : List ℝ) (eps : ℝ) (t : Tensor ℝ) : Tensor ℝ :=
  let d := t.shape.getD 2 0
  Tensor.ofFun t.shape
    (fun ix =>
      t.get ix
        / Real.sqrt
            ((∑ j ∈ Finset.range d, (t.get [ix.getD 0 0, ix.getD 1 0, j]) ^ 2) / d
              + eps)
        * g.getD (ix.getD 2 0) 0)

/-- State of a constructed `Transformer` block: its attention module, the
two RMSNorm weights (with the epsilon the framework chose) and its MLP. -/
structure TransParams where
  attn : AttnParams
  g1 : List ℝ
  g2 : List ℝ
  eps : ℝ
  mlp : MLPParams

namespace Transformer

/-- Model of `Transformer.forward`:
`x = x + attention(x); x = rmsnorm1(x); x = x + mlp(x); x = rmsnorm2(x)`. -/
def forward (p : TransParams) (x : Tensor ℝ) : Option (Tensor ℝ) :=
  (selfAttention.forward p.attn x).map fun a =>
    let x1 := addT x a
    let x2 := rmsnorm3 p.g1 p.eps x1
    let x3 := addT x2 (MLP.forward p.mlp x2)
    rmsnorm3 p.g2 p.eps x3

end Transformer

/-- Modelled from the spec: the post-normalization ordering
"attend → residual-add → normalize → feed-forward → residual-add →
normalize", i.e. `y = normalize(x + attention(x))` followed by
`normalize(y + feedforward(y))`. -/
def specPostNorm (p : TransParams) (x : Tensor ℝ) : Option (Tensor ℝ) :=
  (selfAttention.forward p.attn x).map fun a =>
    let y := rmsnorm3 p.g1 p.eps (addT x a)
    rmsnorm3 p.g2 p.eps (addT y (MLP.forward p.mlp y))

/-! ## Positional encoding -/

namespace PositionalEncoding

/-- Model of `div_term = exp(arange(0, d_embed, 2) * -(log 10000 / d_embed))`:
element `i` is `exp(2i * -(log 10000) / d_embed)`. -/
def div_term (d_embed : Nat) (i : Nat) : ℝ :=
  Real.exp ((2 * i : ℝ) * (-(Real.log 10000) / d_embed))

/-- The precomputed `pe` matrix: the two strided slice assignments
`pe[:, 0::2] = sin(position * div_term)` and
`pe[:, 1::2] = cos(position * div_term)` put `sin(p * div_term[j/2])` at
every even column `j` and `cos(p * div_term[j/2])` at every odd column `j`
(exact for even `d_embed`; for odd `d_embed` the two slice widths disagree
with `div_term`'s length and the assignment raises). -/
def pe (d_embed max_len : Nat) : List (List ℝ) :=
  (List.range max_len).map (fun p : Nat =>
    (List.range d_embed).map (fun j : Nat =>
      if j % 2 = 0 then Real.sin ((p : ℝ) * div_term d_embed (j / 2))
      else Real.cos ((p : ℝ) * div_term d_embed (j / 2))))

end PositionalEncoding

/-! ## Autoregressive sampling (`inference`) -/

/-- One comparison step of a running-maximum scan (keep the earlier entry
on ties, matching PyTorch's first-occurrence convention on CPU). -/
def maxStep (acc : Option (Nat × ℝ)) (p : Nat × ℝ) : Option (Nat × ℝ) :=
  match acc with
  | none => some p
  | some q => if q.2 < p.2 then some p else some q

/-- First pair attaining the maximal second component (PyTorch's
`topk`/`argmax` return the first occurrence among ties on CPU). -/
def maxEntry (l : List (Nat × ℝ)) : Option (Nat × ℝ) :=
  l.foldl maxStep none

/-- Selection loop of `torch.topk`: repeatedly extract the position of the
largest remaining value. -/
def topkSel : Nat → List (Nat × ℝ) → List Nat
  | 0, _ => []
  | k + 1, avail =>
    match maxEntry avail with
    | none => []
    | some q => q.1 :: topkSel k (avail.filter (fun p => decide (p.1 ≠ q.1)))

/-- Indices returned by `torch.topk(v, k)` (sorted by decreasing value). -/
def topkIndices (v : List ℝ) (k : Nat) : List Nat := topkSel k v.enum

/-- Values returned by `torch.topk(v, k)`: the entries of `v` at the top-k
indices. -/
def topkValues (v : List ℝ) (k : Nat) : List ℝ :=
  (topkIndices v k).map (fun i => v.getD i 0)

/-- Model of `torch.softmax` on a vector: `exp x_i / Σ_j exp x_j`. -/
def softmaxList (v : List ℝ) : List ℝ :=
  v.map (fun x => Real.exp x / (v.map Real.exp).sum)

/-- Model of `torch.argmax`: index of the first maximal entry. -/
def argmaxIdx (v : List ℝ) : Nat :=
  ((maxEntry v.enum).map Prod.fst).getD 0

/-- One iteration of the generation loop in `inference`: forward the global
model on the current sequence (`llm` is the composite
`generated ↦ LLM(generated)[0, -1, :]`, the global model's logits at the
last position), top-k filter, softmax, sample, append.  `samp` abstracts
`torch.multinomial(probs, 1)` under the ambient RNG: given the step number
and the filtered distribution it returns a position below its length. -/
def genStep (llm : List Nat → List ℝ) (samp : Nat → List ℝ → Nat)
    (top_k : Nat) (step : Nat) (generated : List Nat) : List Nat :=
  let next_token_logits := llm generated
  let topk_indices := topkIndices next_token_logits top_k
  let topk_logits := topkValues next_token_logits top_k
  let probs := softmaxList topk_logits
  let next_token := topk_indices.getD (samp step probs) 0
  generated ++ [next_token]

/-- The `for _ in range(max_new_tokens)` loop of `inference`. -/
def genLoop (llm : List Nat → List ℝ) (samp : Nat → List ℝ → Nat)
    (top_k : Nat) : Nat → Nat → List Nat → List Nat
  | _, 0, generated => generated
  | step, n + 1, generated =>
      genLoop llm samp top_k (step + 1) n (genStep llm samp top_k step generated)

set_option linter.unusedVariables false in
/-- Model of `inference(model, tokenizer, prompt, max_new_tokens, top_k)`.  The
`model` argument is accepted but the loop body runs `LLM(generated)` — the
global model — so `model` is never used.  The tokenizer is passed as its
`encode`/`decode` maps. -/
def inference {M : Type} (model : M) (llm : List Nat → List ℝ)
    (samp : Nat → List ℝ → Nat) (enc : String → List Nat)
    (dec : List Nat → String) (prompt : String) (max_new_tokens : Nat)
    (top_k : Nat) : String :=
  dec (genLoop llm samp top_k 0 max_new_tokens (enc prompt))

/-- Modelled from the spec: greedy decoding, "repeated argmax selection of
the highest-logit token at each step". -/
def greedyLoop (llm : List Nat → List ℝ) : Nat → List Nat → List Nat
  | 0, cur => cur
  | n + 1, cur => greedyLoop llm n (cur ++ [argmaxIdx (llm cur)])

/-- Modelled from the spec: masked causal attention weights with the scores
divided by an arbitrary constant `c` (the canonical formulation divides by
`sqrt(D/H)`, the reference divides by `sqrt(D)`). -/
def specScaledWeights (c : ℝ) (seq_len : Nat) (QKT : Tensor ℝ) : Tensor ℝ :=
  softmaxLast4
    (divConst (addB43 (toWB QKT) (unsqueeze0 (triu2 (fullT [seq_len, seq_len] ⊥) 1))) c)

/-! ## Concrete instances used by the counterexamples and witnesses -/

/-- The all-zeros matrix oracle. -/
def zMat : Nat → Nat → ℝ := fun _ _ => 0

/-- The identity matrix oracle. -/
def idMat : Nat → Nat → ℝ := fun o k => if o = k then 1 else 0

/-- The all-zeros vector oracle. -/
def zVec : Nat → ℝ := fun _ => 0

/-- A configuration with `d_embed = 10` not divisible by `d_head = 4`. -/
def cfgTen : Config := ⟨10, 4, 40, 2, 1, 3, 8⟩

/-- A zero input of shape `[1, 1, 10]`. -/
def xTen : Tensor ℝ := Tensor.ofFun [1, 1, 10] (fun _ => 0)

/-- A configuration with `d_embed = 5` and `d_mlp = 7` (so that
`4 * d_embed ≠ d_mlp`). -/
def cfgMlp : Config := ⟨5, 1, 7, 5, 1, 3, 8⟩

/-- A two-dimensional, two-head configuration (`d_embed = 2`,
`d_head = 1`). -/
def cfgTwo : Config := ⟨2, 1, 8, 2, 1, 3, 8⟩

/-- The attention module of `cfgTwo` with zero query/key maps, identity
value map and identity output map (a valid parameter assignment). -/
def pTwo : Option AttnParams :=
  selfAttention.init cfgTwo zMat zMat idMat idMat zVec zVec zVec zVec

/-- Zero input of shape `[3, 1, 2]` (batch size 3). -/
def xBatch3 : Tensor ℝ := Tensor.ofFun [3, 1, 2] (fun _ => 0)

/-- Zero input of shape `[1, 2, 2]`. -/
def xRun1 : Tensor ℝ := Tensor.ofFun [1, 2, 2] (fun _ => 0)

/-- Input of shape `[1, 2, 2]` agreeing with `xRun1` at position 0 and
differing at position 1 (entry `[0,1,0]` is 2). -/
def xRun2 : Tensor ℝ :=
  Tensor.ofFun [1, 2, 2] (fun ix => if ix = [0, 1, 0] then 2 else 0)

/-- Raw scores of shape `[1, 1, 2, 2]` whose row 1 is `(2, 0)` (entry
`[0,0,1,0]` is 2), separating the two scaling conventions. -/
def qSep : Tensor ℝ :=
  Tensor.ofFun [1, 1, 2, 2] (fun ix => if ix = [0, 0, 1, 0] then 2 else 0)

/-- A concrete global model with two logits `(0, 1)` at every step. -/
def llmW : List Nat → List ℝ := fun _ => [0, 1]

/-- A concrete sampler that always draws position 0. -/
def sampW : Nat → List ℝ → Nat := fun _ _ => 0

/-- A concrete encoder mapping every prompt to the single token 0. -/
def encW : String → List Nat := fun _ => [0]

/-- A concrete decoder mapping every token list to the empty string. -/
def decW : List Nat → String := fun _ => ""


/-! ## Basic lemmas about the tensor model -/

@[simp] lemma listProd_nil : listProd [] = 1 := rfl

@[simp] lemma listProd_cons (d : Nat) (ds : List Nat) :
    listProd (d :: ds) = d * listProd ds := rfl

@[simp] lemma csd_nil : csd [] = [] := rfl

@[simp] lemma csd_cons (d : Nat) (ds : List Nat) :
    csd (d :: ds) = listProd ds :: csd ds := rfl

@[simp] lemma idxFlat_nil (ix : List Nat) : idxFlat [] ix = 0 := rfl

@[simp] lemma idxFlat_cons (s i : Nat) (st ix : List Nat) :
    idxFlat (s :: st) (i :: ix) = s * i + idxFlat st ix := rfl

@[simp] lemma idxOk_nil : idxOk [] [] = true := rfl

@[simp] lemma idxOk_cons (i d : Nat) (ix ds : List Nat) :
    idxOk (i :: ix) (d :: ds) = (decide (i < d) && idxOk ix ds) := rfl

lemma idxFlat_csd_lt {sh ix : List Nat} (h : idxOk ix sh = true) :
    idxFlat (csd sh) ix < listProd sh := by
  induction sh generalizing ix with
  | nil =>
    cases ix with
    | nil => simp [idxFlat]
    | cons i ix => simp [idxOk] at h
  | cons d ds IH =>
    cases ix with
    | nil => simp [idxOk] at h
    | cons i ix =>
      simp only [idxOk_cons, Bool.and_eq_true, decide_eq_true_eq] at h
      have hr := IH h.2
      have hi : i + 1 ≤ d := h.1
      simp only [csd_cons, idxFlat_cons, listProd_cons]
      calc listProd ds * i + idxFlat (csd ds) ix
          < listProd ds * i + listProd ds := by omega
        _ = listProd ds * (i + 1) := by ring
        _ ≤ listProd ds * d := Nat.mul_le_mul_left _ hi
        _ = d * listProd ds := Nat.mul_comm _ _

lemma unflatten_idxFlat {sh ix : List Nat} (h : idxOk ix sh = true) :
    unflatten sh (idxFlat (csd sh) ix) = ix := by
  induction sh generalizing ix with
  | nil =>
    cases ix with
    | nil => rfl
    | cons i ix => simp [idxOk] at h
  | cons d ds IH =>
    cases ix with
    | nil => simp [idxOk] at h
    | cons i ix =>
      simp only [idxOk_cons, Bool.and_eq_true, decide_eq_true_eq] at h
      have hr : idxFlat (csd ds) ix < listProd ds := idxFlat_csd_lt h.2
      have hP : 0 < listProd ds := Nat.pos_of_ne_zero (by omega)
      simp only [csd_cons, idxFlat_cons, unflatten]
      rw [Nat.mul_add_div hP, Nat.div_eq_of_lt hr, Nat.add_zero,
        Nat.mul_add_mod, Nat.mod_eq_of_lt hr, IH h.2]

@[simp] lemma Tensor.shape_ofFun {α : Type} (sh : List Nat) (f : List Nat → α) :
    (Tensor.ofFun sh f).shape = sh := rfl

@[simp] lemma Tensor.strides_ofFun {α : Type} (sh : List Nat) (f : List Nat → α) :
    (Tensor.ofFun sh f).strides = csd sh := rfl

lemma Tensor.get_ofFun {α : Type} [Zero α] {sh ix : List Nat}
    (f : List Nat → α) (h : idxOk ix sh = true) :
    (Tensor.ofFun sh f).get ix = f ix := by
  have hlt : idxFlat (csd sh) ix < listProd sh := idxFlat_csd_lt h
  simp only [Tensor.get, Tensor.ofFun]
  rw [List.getD_eq_getElem?_getD, List.getElem?_map, List.getElem?_range hlt]
  simp [unflatten_idxFlat h]

lemma getD_map_range {α : Type} {N n : Nat} (f : Nat → α) (d : α)
    (h : n < N) : ((List.range N).map f).getD n d = f n := by
  rw [List.getD_eq_getElem?_getD, List.getElem?_map, List.getElem?_range h]
  rfl

lemma Tensor.map_ofFun {α β : Type} (f : α → β) (sh : List Nat)
    (g : List Nat → α) :
    (Tensor.ofFun sh g).map f = Tensor.ofFun sh (fun ix => f (g ix)) := by
  simp [Tensor.map, Tensor.ofFun, List.map_map, Function.comp]

@[simp] lemma wexp_bot : wexp ⊥ = 0 := rfl

@[simp] lemma wexp_coe (x : ℝ) : wexp (x : WithBot ℝ) = Real.exp x := rfl

@[simp] lemma wexp_zero : wexp 0 = 1 := Real.exp_zero

@[simp] lemma Tensor.shape_map {α β : Type} (f : α → β) (t : Tensor α) :
    (Tensor.map f t).shape = t.shape := rfl

@[simp] lemma shape_toWB (t : Tensor ℝ) : (toWB t).shape = t.shape := rfl

@[simp] lemma shape_divConst (t : Tensor (WithBot ℝ)) (c : ℝ) :
    (divConst t c).shape = t.shape := rfl

@[simp] lemma shape_addB43 (a m : Tensor (WithBot ℝ)) :
    (addB43 a m).shape = a.shape := rfl

lemma get_unsqueeze0 {α : Type} [Zero α] (t : Tensor α) (ix : List Nat) :
    (unsqueeze0 t).get (0 :: ix) = t.get ix := by
  simp [unsqueeze0, Tensor.get, idxFlat]

/-- The causal mask entry: `-inf` strictly above the diagonal, 0 on and
below it. -/
lemma get_causal_mask {L i k : Nat} (hi : i < L) (hk : k < L) :
    (unsqueeze0 (triu2 (fullT [L, L] ⊥) 1)).get [0, i, k]
      = (if i < k then (⊥ : WithBot ℝ) else 0) := by
  rw [get_unsqueeze0]
  have hok2 : idxOk [i, k] [L, L] = true := by simp [hi, hk]
  simp only [triu2, fullT, Tensor.shape_ofFun]
  rw [Tensor.get_ofFun _ hok2]
  simp only [List.getD_cons_zero, List.getD_cons_succ]
  have hiff : ((i : Int) + 1 ≤ (k : Int)) ↔ i < k := by omega
  by_cases hik : i < k
  · rw [if_pos (hiff.mpr hik), if_pos hik, Tensor.get_ofFun _ hok2]
  · rw [if_neg (fun hc => hik (hiff.mp hc)), if_neg hik]

/-- The masked, scaled score entry: `-inf` strictly above the diagonal,
`q/c` on and below it. -/
lemma scaledScores_get (c : ℝ) {B H L : Nat} (q : List Nat → ℝ)
    {b h i k : Nat} (hb : b < B) (hh : h < H) (hi : i < L) (hk : k < L) :
    (divConst (addB43 (toWB (Tensor.ofFun [B, H, L, L] q))
        (unsqueeze0 (triu2 (fullT [L, L] ⊥) 1))) c).get [b, h, i, k]
      = (if i < k then (⊥ : WithBot ℝ) else ((q [b, h, i, k] / c : ℝ) : WithBot ℝ)) := by
  have hok4 : idxOk [b, h, i, k] [B, H, L, L] = true := by
    simp [hb, hh, hi, hk]
  simp only [divConst, addB43, toWB, Tensor.map_ofFun, Tensor.shape_ofFun]
  rw [Tensor.get_ofFun _ hok4]
  simp only [List.getD_cons_zero, List.getD_cons_succ]
  rw [Tensor.get_ofFun _ hok4, get_causal_mask hi hk]
  by_cases hik : i < k
  · simp [hik]
  · simp [hik, ← WithBot.coe_add, WithBot.map_coe]

/-- The post-softmax attention weight entry, for an arbitrary scaling
constant: a masked softmax over the row. -/
lemma specScaledWeights_get (c : ℝ) {B H L : Nat} (q : List Nat → ℝ)
    {b h i j : Nat} (hb : b < B) (hh : h < H) (hi : i < L) (hj : j < L) :
    (specScaledWeights c L (Tensor.ofFun [B, H, L, L] q)).get [b, h, i, j]
      = (if i < j then 0 else Real.exp (q [b, h, i, j] / c))
        / ∑ k ∈ Finset.range L,
            (if i < k then 0 else Real.exp (q [b, h, i, k] / c)) := by
  have hok4 : idxOk [b, h, i, j] [B, H, L, L] = true := by
    simp [hb, hh, hi, hj]
  have hscore : ∀ k : Nat, k < L →
      wexp ((divConst (addB43 (toWB (Tensor.ofFun [B, H, L, L] q))
          (unsqueeze0 (triu2 (fullT [L, L] ⊥) 1))) c).get [b, h, i, k])
        = (if i < k then 0 else Real.exp (q [b, h, i, k] / c)) := by
    intro k hk
    rw [scaledScores_get c q hb hh hi hk]
    by_cases hik : i < k
    · simp [hik, wexp]
    · simp [hik, wexp]
  simp only [specScaledWeights, softmaxLast4, shape_divConst, shape_addB43,
    shape_toWB, Tensor.shape_ofFun, List.getD_cons_zero, List.getD_cons_succ]
  rw [Tensor.get_ofFun _ hok4]
  simp only [List.getD_cons_zero, List.getD_cons_succ]
  rw [hscore j hj]
  congr 1
  refine Finset.sum_congr rfl (fun k hk => ?_)
  rw [hscore k (Finset.mem_range.mp hk)]

/-! ## Claims about the Transformer block, MLP, `inference`, `pe`, `init` -/

/-- C6: for every block state and input, `Transformer.forward` computes
exactly the post-normalization ordering `y = normalize(x + attention(x))`
then `normalize(y + feedforward(y))`. -/
theorem C6_post_norm_ordering (p : TransParams) (x : Tensor ℝ) :
    Transformer.forward p x = specPostNorm p x := rfl

/-- C10: `inference` ignores its `model` parameter — with the same global
model `llm`, sampler, tokenizer maps, prompt, budget and top-k it returns
the same string for any two values of the parameter, because the loop body
forwards the global `LLM`. -/
theorem C10_model_param_unused {M : Type} (m1 m2 : M)
    (llm : List Nat → List ℝ) (samp : Nat → List ℝ → Nat)
    (enc : String → List Nat) (dec : List Nat → String)
    (prompt : String) (N k : Nat) :
    inference m1 llm samp enc dec prompt N k
      = inference m2 llm samp enc dec prompt N k := rfl

/-- C8 counterexample: with `d_embed = 5` and configured `d_mlp = 7`, the
up-projection's output width is `20 = 4 * 5`, not the configured `7`. -/
theorem C8_counterexample :
    (MLP.init cfgMlp zMat zMat zVec zVec).upW.length ≠ cfgMlp.d_mlp := by
  decide

/-- C8 amended: the feed-forward hidden width is hardcoded to
`4 * d_embed`; the configuration's `d_mlp` entry is ignored (changing it
does not change the constructed module), and the up/down projections map
`d_embed → 4 * d_embed → d_embed`. -/
theorem C8_amended_mlp_width (cfg : Config) (v : Nat)
    (fu fd : Nat → Nat → ℝ) (gu gd : Nat → ℝ) :
    MLP.init { cfg with d_mlp := v } fu fd gu gd = MLP.init cfg fu fd gu gd
    ∧ (MLP.init cfg fu fd gu gd).d_mlp = 4 * cfg.d_embed
    ∧ (MLP.init cfg fu fd gu gd).upW.length = 4 * cfg.d_embed
    ∧ (MLP.init cfg fu fd gu gd).downW.length = cfg.d_embed := by
  refine ⟨rfl, rfl, ?_, ?_⟩ <;> simp [MLP.init, mkMat]

/-- C4 counterexample: with `d_embed = 10` not divisible by `d_head = 4`,
construction succeeds (no configuration error), and the first forward call
on a well-shaped input also succeeds. -/
theorem C4_counterexample :
    cfgTen.d_embed % cfgTen.d_head ≠ 0
    ∧ (selfAttention.init cfgTen zMat zMat zMat zMat zVec zVec zVec zVec).isSome = true
    ∧ ((selfAttention.init cfgTen zMat zMat zMat zMat zVec zVec zVec zVec).bind
        (fun p => selfAttention.forward p xTen)).isSome = true := by
  refine ⟨by decide, rfl, rfl⟩

/-- C4 amended: `selfAttention.__init__` performs no divisibility
validation — whenever `d_embed // d_head ≥ 1` it succeeds, silently
deriving `num_head = d_embed // d_head` and the adjusted per-head width
`d_head = d_embed // num_head`. -/
theorem C4_amended_no_validation (cfg : Config)
    (fq fk fv fo : Nat → Nat → ℝ) (gq gk gv go : Nat → ℝ)
    (h : cfg.d_embed / cfg.d_head ≠ 0) :
    ∃ p : AttnParams,
      selfAttention.init cfg fq fk fv fo gq gk gv go = some p
      ∧ p.num_head = cfg.d_embed / cfg.d_head
      ∧ p.d_head = cfg.d_embed / (cfg.d_embed / cfg.d_head) := by
  have hd : cfg.d_head ≠ 0 := by
    intro h0
    exact h (by simp [h0])
  have hcond : ¬(cfg.d_head = 0 ∨ cfg.d_embed / cfg.d_head = 0) :=
    not_or.mpr ⟨hd, h⟩
  simp only [selfAttention.init]
  rw [if_neg hcond]
  exact ⟨_, rfl, rfl, rfl⟩

/-- Witness for C4 amended at the concrete configuration `cfgTen`. -/
theorem C4_amended_witness :
    cfgTen.d_embed / cfgTen.d_head ≠ 0
    ∧ ∃ p : AttnParams,
        selfAttention.init cfgTen zMat zMat zMat zMat zVec zVec zVec zVec = some p
        ∧ p.num_head = cfgTen.d_embed / cfgTen.d_head
        ∧ p.d_head = cfgTen.d_embed / (cfgTen.d_embed / cfgTen.d_head) :=
  ⟨by decide,
    C4_amended_no_validation cfgTen zMat zMat zMat zMat zVec zVec zVec zVec
      (by decide)⟩

/-- C9: for every even embedding width and maximum length at least 1, row 0
of the precomputed positional-encoding matrix is 0 at every even column
(sine components) and 1 at every odd column (cosine components). -/
theorem C9_pe_row_zero (D L j : Nat) (h2 : 2 ∣ D) (hL : 1 ≤ L) (hj : j < D) :
    ((PositionalEncoding.pe D L).getD 0 []).getD j 0
      = if j % 2 = 0 then 0 else 1 := by
  unfold PositionalEncoding.pe
  rw [getD_map_range _ _ (by omega : 0 < L), getD_map_range _ _ hj]
  split <;> simp

/-- Witness for C9 at `D = 4`, `max_len = 2`, column 1. -/
theorem C9_pe_witness :
    2 ∣ 4 ∧ 1 ≤ 2 ∧ 1 < 4
    ∧ ((PositionalEncoding.pe 4 2).getD 0 []).getD 1 0 = 1 := by
  refine ⟨by decide, by decide, by decide, ?_⟩
  have h := C9_pe_row_zero 4 2 1 (by decide) (by decide) (by decide)
  simpa using h

/-! ## The sampling loop with `top_k = 1` -/

lemma foldl_maxStep_some (l : List (Nat × ℝ)) (q : Nat × ℝ) :
    ∃ r, l.foldl maxStep (some q) = some r := by
  induction l generalizing q with
  | nil => exact ⟨q, rfl⟩
  | cons p l IH =>
    simp only [List.foldl_cons, maxStep]
    split
    · exact IH p
    · exact IH q

lemma maxEntry_eq_some {v : List (Nat × ℝ)} (h : v ≠ []) :
    ∃ r, maxEntry v = some r := by
  cases v with
  | nil => exact absurd rfl h
  | cons p l =>
    simp only [maxEntry, List.foldl_cons, maxStep]
    exact foldl_maxStep_some l p

lemma topkIndices_one {v : List ℝ} (h : v ≠ []) :
    topkIndices v 1 = [argmaxIdx v] := by
  have he : v.enum ≠ [] := by
    intro h0
    apply h
    have hl := congrArg List.length h0
    simpa using hl
  obtain ⟨r, hr⟩ := maxEntry_eq_some he
  simp [topkIndices, topkSel, hr, argmaxIdx]

lemma genStep_one (llm : List Nat → List ℝ) (samp : Nat → List ℝ → Nat)
    (hs : ∀ step p, p ≠ [] → samp step p < p.length)
    (step : Nat) (cur : List Nat) (hv : llm cur ≠ []) :
    genStep llm samp 1 step cur = cur ++ [argmaxIdx (llm cur)] := by
  have hidx : topkIndices (llm cur) 1 = [argmaxIdx (llm cur)] :=
    topkIndices_one hv
  have hprobs : softmaxList (topkValues (llm cur) 1) ≠ [] := by
    simp [topkValues, hidx, softmaxList]
  have hlen : (softmaxList (topkValues (llm cur) 1)).length = 1 := by
    simp [topkValues, hidx, softmaxList]
  have hsamp := hs step _ hprobs
  rw [hlen] at hsamp
  have h0 : samp step (softmaxList (topkValues (llm cur) 1)) = 0 := by omega
  simp [genStep, hidx, h0]

lemma genLoop_eq_greedy (llm : List Nat → List ℝ)
    (samp : Nat → List ℝ → Nat)
    (hs : ∀ step p, p ≠ [] → samp step p < p.length)
    (hv : ∀ cur, llm cur ≠ []) :
    ∀ (N step : Nat) (cur : List Nat),
      genLoop llm samp 1 step N cur = greedyLoop llm N cur := by
  intro N
  induction N with
  | zero => intro step cur; rfl
  | succ n IH =>
    intro step cur
    simp only [genLoop, greedyLoop]
    rw [genStep_one llm samp hs step cur (hv cur)]
    exact IH (step + 1) (cur ++ [argmaxIdx (llm cur)])

lemma greedyLoop_length (llm : List Nat → List ℝ) :
    ∀ (N : Nat) (cur : List Nat),
      (greedyLoop llm N cur).length = cur.length + N := by
  intro N
  induction N with
  | zero => intro cur; simp [greedyLoop]
  | succ n IH =>
    intro cur
    simp only [greedyLoop]
    rw [IH]
    simp
    omega

/-- C7: with `top_k = 1` the sampling procedure is exactly greedy decoding,
for every model, prompt, budget and sampler behavior (i.e. random seed):
the generated token sequence equals repeated argmax selection, and exactly
`N` tokens are appended. -/
theorem C7_topk_one_is_greedy {M : Type} (model : M)
    (llm : List Nat → List ℝ) (samp : Nat → List ℝ → Nat)
    (enc : String → List Nat) (dec : List Nat → String)
    (prompt : String) (N : Nat)
    (hs : ∀ step p, p ≠ [] → samp step p < p.length)
    (hv : ∀ cur, llm cur ≠ []) :
    inference model llm samp enc dec prompt N 1
      = dec (greedyLoop llm N (enc prompt))
    ∧ genLoop llm samp 1 0 N (enc prompt) = greedyLoop llm N (enc prompt)
    ∧ (genLoop llm samp 1 0 N (enc prompt)).length
        = (enc prompt).length + N := by
  have hg := genLoop_eq_greedy llm samp hs hv N 0 (enc prompt)
  refine ⟨?_, hg, ?_⟩
  · simp [inference, hg]
  · rw [hg, greedyLoop_length]

/-! ## Row-stochasticity, causal support and the scaling constant -/

open Classical in
/-- C2: every per-head attention weight row produced by masking, scaling
and row-wise softmax is row-stochastic with causal support: entries are
nonnegative, each row sums to 1, entry `(i, j)` is nonzero exactly when
`j ≤ i`, and row `i` has exactly `i + 1` nonzero entries. -/
theorem C2_weights_row_stochastic_causal (B H L d : Nat) (q : List Nat → ℝ)
    (b h i : Nat) (hb : b < B) (hh : h < H) (hi : i < L) :
    (∀ j, j < L → 0 ≤ (selfAttention.maskedWeights d L
        (Tensor.ofFun [B, H, L, L] q)).get [b, h, i, j])
    ∧ (∑ j ∈ Finset.range L, (selfAttention.maskedWeights d L
        (Tensor.ofFun [B, H, L, L] q)).get [b, h, i, j]) = 1
    ∧ (∀ j, j < L → ((selfAttention.maskedWeights d L
        (Tensor.ofFun [B, H, L, L] q)).get [b, h, i, j] ≠ 0 ↔ j ≤ i))
    ∧ ((Finset.range L).filter (fun j => (selfAttention.maskedWeights d L
        (Tensor.ofFun [B, H, L, L] q)).get [b, h, i, j] ≠ 0)).card = i + 1 := by
  have hw : ∀ j, j < L →
      (selfAttention.maskedWeights d L (Tensor.ofFun [B, H, L, L] q)).get [b, h, i, j]
        = (if i < j then 0 else Real.exp (q [b, h, i, j] / Real.sqrt d))
          / ∑ k ∈ Finset.range L,
              (if i < k then 0 else Real.exp (q [b, h, i, k] / Real.sqrt d)) :=
    fun j hj => specScaledWeights_get (Real.sqrt d) q hb hh hi hj
  set S := ∑ k ∈ Finset.range L,
      (if i < k then 0 else Real.exp (q [b, h, i, k] / Real.sqrt d)) with hS
  have hEnn : ∀ k : Nat,
      0 ≤ (if i < k then 0 else Real.exp (q [b, h, i, k] / Real.sqrt d)) := by
    intro k
    by_cases hik : i < k
    · simp [hik]
    · simp [hik]
      exact (Real.exp_pos _).le
  have hSpos : 0 < S := by
    rw [hS]
    refine Finset.sum_pos' (fun k _ => hEnn k) ?_
    refine ⟨i, Finset.mem_range.mpr hi, ?_⟩
    simp [lt_irrefl]
    exact Real.exp_pos _
  have hiff : ∀ j, j < L →
      ((selfAttention.maskedWeights d L
          (Tensor.ofFun [B, H, L, L] q)).get [b, h, i, j] ≠ 0 ↔ j ≤ i) := by
    intro j hj
    rw [hw j hj]
    constructor
    · intro hne
      by_contra hgt
      have hij : i < j := by omega
      exact hne (by simp [hij])
    · intro hle
      have hij : ¬ i < j := by omega
      rw [if_neg hij]
      exact (div_pos (Real.exp_pos _) hSpos).ne'
  refine ⟨?_, ?_, hiff, ?_⟩
  · intro j hj
    rw [hw j hj]
    exact div_nonneg (hEnn j) hSpos.le
  · rw [Finset.sum_congr rfl (fun j hj => hw j (Finset.mem_range.mp hj)),
      ← Finset.sum_div, ← hS, div_self hSpos.ne']
  · have hset : (Finset.range L).filter
        (fun j => (selfAttention.maskedWeights d L
          (Tensor.ofFun [B, H, L, L] q)).get [b, h, i, j] ≠ 0)
        = Finset.range (i + 1) := by
      ext j
      simp only [Finset.mem_filter, Finset.mem_range]
      constructor
      · rintro ⟨hjL, hne⟩
        have := (hiff j hjL).mp hne
        omega
      · intro hj
        have hjL : j < L := by omega
        exact ⟨hjL, (hiff j hjL).mpr (by omega)⟩
    rw [hset, Finset.card_range]

open Classical in
/-- Witness for C2 at `B = H = 1`, `L = 2`, `d = 4`, zero scores, row 1. -/
theorem C2_weights_witness :
    (∀ j, j < 2 → 0 ≤ (selfAttention.maskedWeights 4 2
        (Tensor.ofFun [1, 1, 2, 2] (fun _ => 0))).get [0, 0, 1, j])
    ∧ (∑ j ∈ Finset.range 2, (selfAttention.maskedWeights 4 2
        (Tensor.ofFun [1, 1, 2, 2] (fun _ => 0))).get [0, 0, 1, j]) = 1
    ∧ (∀ j, j < 2 → ((selfAttention.maskedWeights 4 2
        (Tensor.ofFun [1, 1, 2, 2] (fun _ => 0))).get [0, 0, 1, j] ≠ 0 ↔ j ≤ 1))
    ∧ ((Finset.range 2).filter (fun j => (selfAttention.maskedWeights 4 2
        (Tensor.ofFun [1, 1, 2, 2] (fun _ => 0))).get [0, 0, 1, j] ≠ 0)).card
        = 1 + 1 :=
  C2_weights_row_stochastic_causal 1 1 2 4 (fun _ => 0) 0 0 1
    (by decide) (by decide) (by decide)

/-- C5: the masked scores are divided by `sqrt(d_embed)` — the full
embedding width — before the softmax.  First conjunct: the weights equal
the spec-modelled masked softmax scaled by `sqrt D` for every input.
Second conjunct: at a concrete input with `D = 4`, `H = 2`, scaling by
`sqrt D` and by the canonical `sqrt (D/H)` give different weights, so the
two conventions are genuinely distinguished. -/
theorem C5_scaled_by_full_width :
    (∀ (d L : Nat) (QKT : Tensor ℝ),
        selfAttention.maskedWeights d L QKT
          = specScaledWeights (Real.sqrt d) L QKT)
    ∧ (selfAttention.maskedWeights 4 2 qSep).get [0, 0, 1, 0]
        ≠ (specScaledWeights (Real.sqrt ((4 : ℝ) / 2)) 2 qSep).get [0, 0, 1, 0] := by
  constructor
  · intro d L QKT
    rfl
  · have key : ∀ c : ℝ, (specScaledWeights c 2 qSep).get [0, 0, 1, 0]
        = Real.exp (2 / c) / (Real.exp (2 / c) + 1) := by
      intro c
      have h := specScaledWeights_get c
        (q := fun ix => if ix = [0, 0, 1, 0] then 2 else 0)
        (B := 1) (H := 1) (L := 2) (b := 0) (h := 0) (i := 1) (j := 0)
        (by decide) (by decide) (by decide) (by decide)
      rw [show qSep = Tensor.ofFun [1, 1, 2, 2]
          (fun ix => if ix = [0, 0, 1, 0] then 2 else 0) from rfl, h]
      norm_num [Finset.sum_range_succ]
    have hms : selfAttention.maskedWeights 4 2 qSep
        = specScaledWeights (Real.sqrt ((4 : Nat) : ℝ)) 2 qSep := rfl
    rw [hms, key, key]
    have h4 : Real.sqrt ((4 : Nat) : ℝ) = 2 := by
      rw [show ((4 : Nat) : ℝ) = (2 : ℝ) ^ 2 by norm_num,
        Real.sqrt_sq (by norm_num : (0 : ℝ) ≤ 2)]
    have h2 : Real.sqrt ((4 : ℝ) / 2) = Real.sqrt 2 := by norm_num
    rw [h4, h2, show (2 : ℝ) / 2 = 1 by norm_num, Real.div_sqrt]
    have hsq2 : (1 : ℝ) < Real.sqrt 2 := by
      rw [show (1 : ℝ) = Real.sqrt 1 from Real.sqrt_one.symm]
      exact Real.sqrt_lt_sqrt (by norm_num) (by norm_num)
    intro heq
    have ha : (0 : ℝ) < Real.exp 1 := Real.exp_pos _
    have hb2 : (0 : ℝ) < Real.exp (Real.sqrt 2) := Real.exp_pos _
    have hexp : Real.exp 1 = Real.exp (Real.sqrt 2) := by
      field_simp at heq
      nlinarith [heq]
    have h12 : (1 : ℝ) = Real.sqrt 2 := Real.exp_injective hexp
    linarith

/-- Witness for C7 at a concrete model, sampler, tokenizer and budget. -/
theorem C7_witness :
    inference (0 : Nat) llmW sampW encW decW "" 2 1
      = decW (greedyLoop llmW 2 (encW ""))
    ∧ genLoop llmW sampW 1 0 2 (encW "") = greedyLoop llmW 2 (encW "")
    ∧ (genLoop llmW sampW 1 0 2 (encW "")).length = (encW "").length + 2 :=
  C7_topk_one_is_greedy 0 llmW sampW encW decW "" 2
    (fun step p hp => by
      have := List.length_pos.mpr hp
      simpa [sampW] using this)
    (fun cur => by simp [llmW])



/-! ## The reassembly bug: `attn.transpose(0, 1)` -/

/-- C1: at batch size 3 (`d_embed = 2`, two heads, `L = 1`) the forward
pass fails: after `attn.transpose(0, 1)` — which swaps batch and head, not
head and sequence — the tensor's non-singleton axes are two separate
chunks of sizes (H, B) = (2, 3) with strides (1, 2), and the requested
`attn.view(batch_size, seq_len, num_head * d_head)` sizes (3, 2) cannot
align with those chunk boundaries, so `view` raises and no `[B, L, D]`
output is produced. -/
theorem C1_batch3_forward_fails :
    pTwo.bind (fun p => selfAttention.forward p xBatch3) = none := rfl

set_option maxHeartbeats 4000000 in
/-- C3: two runs at batch size 1 (`d_embed = 2`, two heads, `L = 2`) on
inputs that agree at position 0 and differ only at position 1 give
different outputs at position 0 — the head-major reassembly
(`transpose(0, 1)` followed by `view`) places head 0's position-1 output
into the position-0 row, so position 0 depends on a strictly later
position. -/
theorem C3_position0_depends_on_future :
    xRun1.get [0, 0, 0] = xRun2.get [0, 0, 0]
    ∧ xRun1.get [0, 0, 1] = xRun2.get [0, 0, 1]
    ∧ (pTwo.bind (fun p => selfAttention.forward p xRun1)).map
        (fun t => t.get [0, 0, 1]) = some 0
    ∧ (pTwo.bind (fun p => selfAttention.forward p xRun2)).map
        (fun t => t.get [0, 0, 1]) = some 1 := by
  refine ⟨rfl, rfl, ?_, ?_⟩ <;>
    norm_num [pTwo, cfgTwo, selfAttention.init, selfAttention.forward,
      selfAttention.maskedWeights, xRun1, xRun2, linear3, matmul4,
      Tensor.view, Tensor.transposeDims, triu2, fullT, addB43, toWB, divConst,
      softmaxLast4, unsqueeze0, Tensor.map, Tensor.get, Tensor.ofFun,
      getD_map_range, unflatten, swapL, viewOk, squeezePairs, chunkNumels,
      chunksGo, consume, groupable, mkMat, mkVec,
      zMat, idMat, zVec, Finset.sum_range_succ, Finset.sum_range_zero,
      List.map_map, WithBot.map_coe, WithBot.map_bot, WithBot.add_bot,
      ← WithBot.coe_add, Real.exp_zero]

end

end Tut
